import Mathlib

set_option maxRecDepth 10000

/-!
A verification development for a Vigenere-style substitution cipher over a
192-symbol alphabet.  The definitions below are a shallow embedding of the
cipher engine found in `src/cipher.rs`: the dictionary (alphabet)
construction, the iterative Vigenere-matrix construction, key completion by
cyclic repetition, and the `encode` / `decode` / `decode_web` operations with
their error values.  Rust strings are modelled as `List Char`, fallible
indexing and `unwrap` panics as `Option`, and `Result<_, ErrorCode>` as
`Except ErrorCode _`.
-/

namespace VigCipher

/-- Size of the dictionary (`SIZE` in the source). -/
def SIZE : Nat := 192

/-- `ErrorCode` from the source: `InvalidChar(char)` and `InvalidIndex(usize)`. -/
inductive ErrorCode where
  | InvalidChar (c : Char) : ErrorCode
  | InvalidIndex (n : Nat) : ErrorCode
deriving DecidableEq, Repr

deriving instance DecidableEq for Except

/-- The raw dictionary string literal of `DictWrap::new`, transcribed
codepoint by codepoint: the printable ASCII characters `!` (U+0021) through
`~` (U+007E), then the space character U+0020, then the Latin-1 characters
U+00A1 through U+00FF (including the soft hyphen U+00AD). 190 characters. -/
def dict_string : List Char := [
  Char.ofNat 33, Char.ofNat 34, Char.ofNat 35, Char.ofNat 36, Char.ofNat 37, Char.ofNat 38, Char.ofNat 39, Char.ofNat 40, Char.ofNat 41, Char.ofNat 42, Char.ofNat 43, Char.ofNat 44,
  Char.ofNat 45, Char.ofNat 46, Char.ofNat 47, Char.ofNat 48, Char.ofNat 49, Char.ofNat 50, Char.ofNat 51, Char.ofNat 52, Char.ofNat 53, Char.ofNat 54, Char.ofNat 55, Char.ofNat 56,
  Char.ofNat 57, Char.ofNat 58, Char.ofNat 59, Char.ofNat 60, Char.ofNat 61, Char.ofNat 62, Char.ofNat 63, Char.ofNat 64, Char.ofNat 65, Char.ofNat 66, Char.ofNat 67, Char.ofNat 68,
  Char.ofNat 69, Char.ofNat 70, Char.ofNat 71, Char.ofNat 72, Char.ofNat 73, Char.ofNat 74, Char.ofNat 75, Char.ofNat 76, Char.ofNat 77, Char.ofNat 78, Char.ofNat 79, Char.ofNat 80,
  Char.ofNat 81, Char.ofNat 82, Char.ofNat 83, Char.ofNat 84, Char.ofNat 85, Char.ofNat 86, Char.ofNat 87, Char.ofNat 88, Char.ofNat 89, Char.ofNat 90, Char.ofNat 91, Char.ofNat 92,
  Char.ofNat 93, Char.ofNat 94, Char.ofNat 95, Char.ofNat 96, Char.ofNat 97, Char.ofNat 98, Char.ofNat 99, Char.ofNat 100, Char.ofNat 101, Char.ofNat 102, Char.ofNat 103, Char.ofNat 104,
  Char.ofNat 105, Char.ofNat 106, Char.ofNat 107, Char.ofNat 108, Char.ofNat 109, Char.ofNat 110, Char.ofNat 111, Char.ofNat 112, Char.ofNat 113, Char.ofNat 114, Char.ofNat 115, Char.ofNat 116,
  Char.ofNat 117, Char.ofNat 118, Char.ofNat 119, Char.ofNat 120, Char.ofNat 121, Char.ofNat 122, Char.ofNat 123, Char.ofNat 124, Char.ofNat 125, Char.ofNat 126, Char.ofNat 32, Char.ofNat 161,
  Char.ofNat 162, Char.ofNat 163, Char.ofNat 164, Char.ofNat 165, Char.ofNat 166, Char.ofNat 167, Char.ofNat 168, Char.ofNat 169, Char.ofNat 170, Char.ofNat 171, Char.ofNat 172, Char.ofNat 173,
  Char.ofNat 174, Char.ofNat 175, Char.ofNat 176, Char.ofNat 177, Char.ofNat 178, Char.ofNat 179, Char.ofNat 180, Char.ofNat 181, Char.ofNat 182, Char.ofNat 183, Char.ofNat 184, Char.ofNat 185,
  Char.ofNat 186, Char.ofNat 187, Char.ofNat 188, Char.ofNat 189, Char.ofNat 190, Char.ofNat 191, Char.ofNat 192, Char.ofNat 193, Char.ofNat 194, Char.ofNat 195, Char.ofNat 196, Char.ofNat 197,
  Char.ofNat 198, Char.ofNat 199, Char.ofNat 200, Char.ofNat 201, Char.ofNat 202, Char.ofNat 203, Char.ofNat 204, Char.ofNat 205, Char.ofNat 206, Char.ofNat 207, Char.ofNat 208, Char.ofNat 209,
  Char.ofNat 210, Char.ofNat 211, Char.ofNat 212, Char.ofNat 213, Char.ofNat 214, Char.ofNat 215, Char.ofNat 216, Char.ofNat 217, Char.ofNat 218, Char.ofNat 219, Char.ofNat 220, Char.ofNat 221,
  Char.ofNat 222, Char.ofNat 223, Char.ofNat 224, Char.ofNat 225, Char.ofNat 226, Char.ofNat 227, Char.ofNat 228, Char.ofNat 229, Char.ofNat 230, Char.ofNat 231, Char.ofNat 232, Char.ofNat 233,
  Char.ofNat 234, Char.ofNat 235, Char.ofNat 236, Char.ofNat 237, Char.ofNat 238, Char.ofNat 239, Char.ofNat 240, Char.ofNat 241, Char.ofNat 242, Char.ofNat 243, Char.ofNat 244, Char.ofNat 245,
  Char.ofNat 246, Char.ofNat 247, Char.ofNat 248, Char.ofNat 249, Char.ofNat 250, Char.ofNat 251, Char.ofNat 252, Char.ofNat 253, Char.ofNat 254, Char.ofNat 255
]

/-- The dictionary after `dict.push('\n'); dict.push('\r')` in
`DictWrap::new`. -/
def dict_full : List Char := dict_string ++ [Char.ofNat 10, Char.ofNat 13]

/-- The character array of `DictWrap`: a 192-cell array initialised with
blanks and overwritten position by position from `dict_full`
(`let mut dict_char_arr = [' '; SIZE]; for (idx, ch) in dict.chars() ...`). -/
def dict : List Char := (List.range SIZE).map (fun i => dict_full.getD i ' ')

/-! ### The cyclic iterator

Rust's `Iterator::cycle` keeps the original sequence together with an
iterator over the remaining part; when the remainder is exhausted it restarts
from the original sequence, and it yields nothing when the original sequence
is empty.  `unwrap` on an exhausted iterator is modelled by `Option`. -/

structure CycleIt where
  orig : List Char
  rest : List Char
deriving Repr

/-- One `next()` call on a cycled iterator. -/
def CycleIt.next : CycleIt → Option (Char × CycleIt)
  | ⟨orig, c :: cs⟩ => some (c, ⟨orig, cs⟩)
  | ⟨orig, []⟩ =>
    match orig with
    | [] => none
    | c :: cs => some (c, ⟨c :: cs, cs⟩)

/-- `n` consecutive `next().unwrap()` calls: the characters obtained and the
final iterator state; `none` models the `unwrap` panic on an empty cycle. -/
def takeCycle : CycleIt → Nat → Option (List Char × CycleIt)
  | it, 0 => some ([], it)
  | it, n + 1 =>
    match it.next with
    | none => none
    | some (c, it1) =>
      match takeCycle it1 n with
      | none => none
      | some (l, it2) => some (c :: l, it2)

/-- `complete_key` from the source: pushes `msg_size` characters drawn from
`key.chars().cycle()` onto an initially empty string. -/
def complete_key (key : List Char) (msg_size : Nat) : Option (List Char) :=
  (takeCycle ⟨key, key⟩ msg_size).map Prod.fst

/-- The key-completion step shared by `encode` and `decode`: the key is
completed exactly when its character count differs from the message's
(`if msg_size != key_size { key_e = complete_key(key, msg_size) }`). -/
def key_for (key : List Char) (msg_size : Nat) : Option (List Char) :=
  if msg_size ≠ key.length then complete_key key msg_size else some key

/-! ### The Vigenere matrix -/

/-- The row-filling loop of `VigMatrixWrap::new`: the inner
`for c in 0..SIZE` loop takes `SIZE` characters from the cyclic iterator,
then the extra `acc.next()` after the inner loop skips one character.
`buildRows it n` builds `n` consecutive rows from iterator state `it`. -/
def buildRows : CycleIt → Nat → Option (List (List Char))
  | _, 0 => some []
  | it, n + 1 =>
    match takeCycle it SIZE with
    | none => none
    | some (row, it1) =>
      match it1.next with
      | none => none
      | some (_, it2) => (buildRows it2 n).map (row :: ·)

/-- `VigMatrixWrap::new`: 192 rows filled from a single never-reset cyclic
iterator over the dictionary, one extra element skipped after each row. -/
def vigMatrixNew : Option (List (List Char)) := buildRows ⟨dict, dict⟩ SIZE

/-- The closed-form substitution table stated by the specification:
`table[r][c] = Alphabet[(r + c) mod 192]`. -/
def vigMatrixClosed : List (List Char) :=
  (List.range SIZE).map
    (fun r => (List.range SIZE).map (fun c => dict.getD ((r + c) % SIZE) ' '))

/-! ### Encoding -/

/-- First-match scan of a character list, returning the index of the first
occurrence: the `for (index, val) in matrix.0[0].iter().enumerate()` loop of
`index_finder`. -/
def find_index (ch : Char) : List Char → Option Nat
  | [] => none
  | c :: cs => if ch = c then some 0 else (find_index ch cs).map (· + 1)

/-- `index_finder` from the source: scans row 0 of the matrix for `ch` and
fails with `InvalidChar` when it is absent. -/
def index_finder (ch : Char) (mat : List (List Char)) : Except ErrorCode Nat :=
  match find_index ch (mat.getD 0 []) with
  | some i => .ok i
  | none => .error (.InvalidChar ch)

/-- `vig_matcher` from the source: the message character's column index, the
key character's row index, and the matrix entry at that row and column. -/
def vig_matcher (mat : List (List Char)) (msg_char key_char : Char) :
    Except ErrorCode Char := do
  let index_col ← index_finder msg_char mat
  let index_row ← index_finder key_char mat
  return (mat.getD index_row []).getD index_col ' '

/-- The `for i in 0..msg_size` encryption loop of `encode`, over the message
and completed-key characters in lockstep. -/
def encode_go (mat : List (List Char)) :
    List (Char × Char) → Except ErrorCode (List Char)
  | [] => .ok []
  | (m, k) :: rest => do
    let c ← vig_matcher mat m k
    let cs ← encode_go mat rest
    return c :: cs

/-- `encode` from the source.  The outer `Option` models the `unwrap` panic
inside `complete_key`, reachable only for an empty key. -/
def encode (msg key : List Char) (vig_mat : List (List Char)) :
    Option (Except ErrorCode (List Char)) :=
  (key_for key msg.length).map (fun key_e => encode_go vig_mat (msg.zip key_e))

/-! ### Decoding -/

/-- The inner `for c in 0..vig_mat.0.len()` scan of `decode`: `msg_index`
starts at `0` and is overwritten by every matching column, with no error when
nothing matches. -/
def decode_scan (mat : List (List Char)) (key_index : Nat) (target : Char) : Nat :=
  (List.range mat.length).foldl
    (fun acc c => if (mat.getD key_index []).getD c ' ' = target then c else acc) 0

/-- `char_finder` from the source: scans row 0 by `enumerate`, returning the
character whose position equals `index`, or `InvalidIndex` past the end. -/
def char_finder (index : Nat) (mat : List (List Char)) : Except ErrorCode Char :=
  match (mat.getD 0 []).get? index with
  | some c => .ok c
  | none => .error (.InvalidIndex index)

/-- The `for letter in 0..msg_size` decryption loop of `decode`. -/
def decode_go (mat : List (List Char)) :
    List (Char × Char) → Except ErrorCode (List Char)
  | [] => .ok []
  | (m, k) :: rest => do
    let key_index ← index_finder k mat
    let msg_index := decode_scan mat key_index m
    let c ← char_finder msg_index mat
    let cs ← decode_go mat rest
    return c :: cs

/-- `decode` from the source. -/
def decode (enc_msg key : List Char) (vig_mat : List (List Char)) :
    Option (Except ErrorCode (List Char)) :=
  (key_for key enc_msg.length).map (fun key_e => decode_go vig_mat (enc_msg.zip key_e))

/-! ### Display formatting -/

/-- The character-rewriting loop of `decode_web`: each space becomes
`"&nbsp;"`, each line feed or carriage return becomes `"<br>"`, and any
other character passes through unchanged. -/
def web_escape : List Char → List Char
  | [] => []
  | ch :: rest =>
    (if ch = ' ' then "&nbsp;".data
     else if ch = Char.ofNat 10 ∨ ch = Char.ofNat 13 then "<br>".data
     else [ch]) ++ web_escape rest

/-- `decode_web` from the source: `decode`, then the display rewrite applied
to a successful result (`?` propagates the error). -/
def decode_web (enc_msg key : List Char) (vig_mat : List (List Char)) :
    Option (Except ErrorCode (List Char)) :=
  (decode enc_msg key vig_mat).map (fun r => r.map web_escape)

example : dict_full.length = 192 := by decide
example : dict = dict_full := by decide
example : dict.getD 0 ' ' = '!' := by decide
example : dict.getD 94 ' ' = ' ' := by decide
example : dict.getD 190 ' ' = Char.ofNat 10 := by decide
example : dict.Nodup := by decide

example : complete_key ['a', 'b'] 5 = some ['a', 'b', 'a', 'b', 'a'] := by decide
example : complete_key [] 2 = none := by decide
example : encode ['a'] ['b'] [['b', 'a']] = some (.ok ['a']) := by decide
example : decode ['a'] ['b'] [['b', 'a']] = some (.ok ['b']) := by decide
example : web_escape [' '] = "&nbsp;".data := by decide

/-! ### Facts about the cyclic iterator -/

lemma dict_length : dict.length = SIZE := by decide

lemma dict_ne_nil : dict ≠ [] := by decide

lemma dict_nodup : dict.Nodup := by decide

/-- A `next()` call on the cycled iterator whose remaining part is a suffix
of the original list yields the element at the current offset modulo the
length, and leaves the iterator at the following offset. -/
lemma cycleNext_drop {L : List Char} (hL : L ≠ []) {k : Nat} (hk : k ≤ L.length) :
    CycleIt.next ⟨L, L.drop k⟩ =
      some (L.getD (k % L.length) ' ', ⟨L, L.drop (k % L.length + 1)⟩) := by
  have hlen : 0 < L.length := List.length_pos.mpr hL
  rcases Nat.lt_or_ge k L.length with hlt | hge
  · rw [List.drop_eq_getElem_cons hlt, Nat.mod_eq_of_lt hlt,
      List.getD_eq_getElem _ _ hlt]
    rfl
  · have hkeq : k = L.length := le_antisymm hk hge
    subst hkeq
    rw [List.drop_length, Nat.mod_self]
    cases L with
    | nil => simp at hL
    | cons c cs =>
      rw [List.getD_eq_getElem _ _ hlen]
      rfl

/-- Taking `n` elements from the cycle of a non-empty list `L`, starting at
offset `k`, yields the elements at offsets `k, k+1, ...` modulo `L.length`
and ends at an offset congruent to `k + n`. -/
lemma takeCycle_spec {L : List Char} (hL : L ≠ []) (n : Nat) :
    ∀ k, k ≤ L.length →
      ∃ k2, k2 ≤ L.length ∧ k2 % L.length = (k + n) % L.length ∧
        takeCycle ⟨L, L.drop k⟩ n =
          some ((List.range n).map (fun i => L.getD ((k + i) % L.length) ' '),
            ⟨L, L.drop k2⟩) := by
  have hlen : 0 < L.length := List.length_pos.mpr hL
  induction n with
  | zero => exact fun k hk => ⟨k, hk, rfl, by simp [takeCycle]⟩
  | succ n ih =>
    intro k hk
    have hklt : k % L.length < L.length := Nat.mod_lt _ hlen
    obtain ⟨k2, hk2, hmod, heq⟩ := ih (k % L.length + 1) hklt
    refine ⟨k2, hk2, ?_, ?_⟩
    · rw [hmod, Nat.add_assoc, Nat.mod_add_mod, Nat.add_comm 1 n]
    · simp only [takeCycle, cycleNext_drop hL hk, heq]
      rw [List.range_succ_eq_map]
      simp only [List.map_cons, List.map_map, Nat.add_zero]
      refine congrArg (fun l => some ((L.getD (k % L.length) ' ' :: l : List Char),
        (⟨L, L.drop k2⟩ : CycleIt))) ?_
      refine List.map_congr_left (fun i _ => ?_)
      simp only [Function.comp_apply, Nat.succ_eq_add_one]
      rw [Nat.add_assoc, Nat.mod_add_mod, Nat.add_comm 1 i]

/-- `complete_key` on a non-empty key returns `msg_size` characters, the
`i`-th being the key character at `i` modulo the key length. -/
lemma complete_key_spec {key : List Char} (hk : key ≠ []) (n : Nat) :
    ∃ l, complete_key key n = some l ∧ l.length = n ∧
      ∀ i < n, l.getD i ' ' = key.getD (i % key.length) ' ' := by
  obtain ⟨k2, -, -, heq⟩ := takeCycle_spec hk n 0 (Nat.zero_le _)
  rw [List.drop_zero] at heq
  refine ⟨(List.range n).map (fun i => key.getD ((0 + i) % key.length) ' '),
    by rw [complete_key, heq]; rfl, by simp, ?_⟩
  intro i hi
  have hi' : i < ((List.range n).map
      (fun i => key.getD ((0 + i) % key.length) ' ')).length := by simp [hi]
  rw [List.getD_eq_getElem _ _ hi', List.getElem_map, List.getElem_range, Nat.zero_add]

/-- The key actually used by `encode` and `decode`: both branches of the
size test produce a key of the message's length whose `i`-th character is
the key character at position `i` modulo the key length. -/
lemma key_for_spec {key : List Char} (hk : key ≠ []) (n : Nat) :
    ∃ l, key_for key n = some l ∧ l.length = n ∧
      ∀ i < n, l.getD i ' ' = key.getD (i % key.length) ' ' := by
  by_cases h : n = key.length
  · subst h
    refine ⟨key, by rw [key_for, if_neg (by simp)], rfl, ?_⟩
    intro i hi
    rw [Nat.mod_eq_of_lt hi]
  · obtain ⟨l, h1, h2, h3⟩ := complete_key_spec hk n
    exact ⟨l, by rw [key_for, if_pos h]; exact h1, h2, h3⟩

/-- Filling rows from the cyclic dictionary iterator at offset `k`: row `r`
holds the dictionary characters at offsets `k + r + c` modulo `SIZE`.  The
192 characters taken for a row advance the offset by `192 ≡ 0 (mod 192)` and
the one extra skipped character advances it by one more, so each row is the
previous row shifted by exactly one position. -/
lemma buildRows_spec (n : Nat) :
    ∀ k, k ≤ SIZE →
      buildRows ⟨dict, dict.drop k⟩ n =
        some ((List.range n).map (fun r =>
          (List.range SIZE).map (fun c => dict.getD ((k + r + c) % SIZE) ' '))) := by
  have hds : dict.length = SIZE := dict_length
  induction n with
  | zero => intro k hk; simp [buildRows]
  | succ n ih =>
    intro k hk
    have hk' : k ≤ dict.length := by rw [hds]; exact hk
    obtain ⟨k2, hk2, hmod2, heq2⟩ := takeCycle_spec dict_ne_nil SIZE k hk'
    rw [hds] at hmod2
    have hnext := cycleNext_drop dict_ne_nil hk2
    have hk3 : k2 % dict.length + 1 ≤ SIZE := by
      rw [← hds]
      exact Nat.mod_lt _ (List.length_pos.mpr dict_ne_nil)
    have hihres := ih (k2 % dict.length + 1) hk3
    simp only [buildRows, heq2, hnext, hihres, Option.map_some']
    rw [List.range_succ_eq_map]
    simp only [List.map_cons, List.map_map, Nat.add_zero]
    refine congrArg some (List.cons_eq_cons.mpr ⟨?_, ?_⟩)
    · rw [hds]
    · refine List.map_congr_left (fun r _ => ?_)
      simp only [Function.comp_apply, Nat.succ_eq_add_one]
      refine List.map_congr_left (fun c _ => ?_)
      refine congrArg (fun j => dict.getD j ' ') ?_
      rw [hds]
      simp only [SIZE] at hmod2 ⊢
      omega

/-- The iteratively built Vigenere matrix is exactly the closed-form table. -/
lemma vig_new_eq_closed : vigMatrixNew = some vigMatrixClosed := by
  have h := buildRows_spec SIZE 0 (Nat.zero_le _)
  rw [List.drop_zero] at h
  rw [vigMatrixNew, h, vigMatrixClosed]
  refine congrArg some
    (List.map_congr_left (fun r _ => List.map_congr_left (fun c _ => ?_)))
  rw [Nat.zero_add]

/-! ### Index lookup in the dictionary -/

lemma find_index_none {ch : Char} {l : List Char} (h : ch ∉ l) :
    find_index ch l = none := by
  induction l with
  | nil => rfl
  | cons c cs ih =>
    rw [List.mem_cons, not_or] at h
    rw [find_index, if_neg h.1, ih h.2]
    rfl

lemma find_index_mem {ch : Char} {l : List Char} (h : ch ∈ l) :
    ∃ i, find_index ch l = some i ∧ i < l.length ∧ l.getD i ' ' = ch := by
  induction l with
  | nil => simp at h
  | cons c cs ih =>
    by_cases hc : ch = c
    · refine ⟨0, by rw [find_index, if_pos hc], by simp, ?_⟩
      rw [List.getD_cons_zero]
      exact hc.symm
    · have hcs : ch ∈ cs := by
        rcases List.mem_cons.mp h with h1 | h2
        · exact absurd h1 hc
        · exact h2
      obtain ⟨i, h1, h2, h3⟩ := ih hcs
      exact ⟨i + 1, by rw [find_index, if_neg hc, h1]; rfl,
        by simpa using h2, by simpa using h3⟩

lemma dict_getD_inj {a b : Nat} (ha : a < SIZE) (hb : b < SIZE)
    (h : dict.getD a ' ' = dict.getD b ' ') : a = b := by
  have ha' : a < dict.length := by rw [dict_length]; exact ha
  have hb' : b < dict.length := by rw [dict_length]; exact hb
  rw [List.getD_eq_getElem _ _ ha', List.getD_eq_getElem _ _ hb'] at h
  exact (List.Nodup.getElem_inj_iff dict_nodup).mp h

/-! ### The last-match fold used by the decode scan -/

lemma foldl_select_of_forall_not {P : Nat → Prop} [DecidablePred P] :
    ∀ (l : List Nat) (acc : Nat), (∀ x ∈ l, ¬ P x) →
      l.foldl (fun a c => if P c then c else a) acc = acc
  | [], _, _ => rfl
  | x :: xs, acc, h => by
    rw [List.foldl_cons, if_neg (h x (List.mem_cons_self x xs))]
    exact foldl_select_of_forall_not xs acc
      (fun y hy => h y (List.mem_cons_of_mem x hy))

lemma foldl_select_lt {P : Nat → Prop} [DecidablePred P] {n : Nat} :
    ∀ (l : List Nat) (acc : Nat), (∀ x ∈ l, x < n) → acc < n →
      l.foldl (fun a c => if P c then c else a) acc < n
  | [], _, _, hacc => hacc
  | x :: xs, acc, h, hacc => by
    rw [List.foldl_cons]
    by_cases hP : P x
    · rw [if_pos hP]
      exact foldl_select_lt xs x (fun y hy => h y (List.mem_cons_of_mem x hy))
        (h x (List.mem_cons_self x xs))
    · rw [if_neg hP]
      exact foldl_select_lt xs acc (fun y hy => h y (List.mem_cons_of_mem x hy)) hacc

lemma foldl_select_unique {P : Nat → Prop} [DecidablePred P] {m : Nat} :
    ∀ (l : List Nat) (acc : Nat), m ∈ l → P m → (∀ x ∈ l, P x → x = m) →
      l.foldl (fun a c => if P c then c else a) acc = m
  | [], _, hm, _, _ => absurd hm (List.not_mem_nil m)
  | x :: xs, acc, hm, hPm, hu => by
    rw [List.foldl_cons]
    rcases List.mem_cons.mp hm with rfl | hxs
    · rw [if_pos hPm]
      by_cases hmem : m ∈ xs
      · exact foldl_select_unique xs m hmem hPm
          (fun y hy => hu y (List.mem_cons_of_mem m hy))
      · refine foldl_select_of_forall_not xs m (fun y hy hPy => ?_)
        exact hmem ((hu y (List.mem_cons_of_mem m hy) hPy) ▸ hy)
    · by_cases hPx : P x
      · rw [if_pos hPx]
        have hxm : x = m := hu x (List.mem_cons_self x xs) hPx
        subst hxm
        exact foldl_select_unique xs x hxs hPm
          (fun y hy => hu y (List.mem_cons_of_mem x hy))
      · rw [if_neg hPx]
        exact foldl_select_unique xs acc hxs hPm
          (fun y hy => hu y (List.mem_cons_of_mem x hy))

/-! ### Access to the closed-form matrix -/

lemma closed_length : vigMatrixClosed.length = SIZE := by
  rw [vigMatrixClosed, List.length_map, List.length_range]

lemma closed_row {r : Nat} (hr : r < SIZE) :
    vigMatrixClosed.getD r [] =
      (List.range SIZE).map (fun c => dict.getD ((r + c) % SIZE) ' ') := by
  have hr' : r < vigMatrixClosed.length := by rw [closed_length]; exact hr
  rw [List.getD_eq_getElem _ _ hr']
  simp only [vigMatrixClosed, List.getElem_map, List.getElem_range]

lemma closed_entry {r c : Nat} (hr : r < SIZE) (hc : c < SIZE) :
    (vigMatrixClosed.getD r []).getD c ' ' = dict.getD ((r + c) % SIZE) ' ' := by
  rw [closed_row hr]
  have hc' : c < ((List.range SIZE).map
      (fun c => dict.getD ((r + c) % SIZE) ' ')).length := by simp [hc]
  rw [List.getD_eq_getElem _ _ hc']
  simp only [List.getElem_map, List.getElem_range]

lemma closed_row0 : vigMatrixClosed.getD 0 [] = dict := by
  rw [closed_row (by decide : (0 : Nat) < SIZE)]
  refine List.ext_getElem (by simp [dict_length]) (fun i h1 h2 => ?_)
  simp only [List.getElem_map, List.getElem_range]
  have hi : i < SIZE := by simpa using h1
  rw [Nat.zero_add, Nat.mod_eq_of_lt hi, List.getD_eq_getElem _ _ h2]

lemma index_finder_closed (ch : Char) :
    index_finder ch vigMatrixClosed =
      match find_index ch dict with
      | some i => Except.ok i
      | none => Except.error (.InvalidChar ch) := by
  rw [index_finder, closed_row0]

lemma char_finder_closed {i : Nat} (hi : i < SIZE) :
    char_finder i vigMatrixClosed = .ok (dict.getD i ' ') := by
  rw [char_finder, closed_row0]
  have hi' : i < dict.length := by rw [dict_length]; exact hi
  rw [List.get?_eq_getElem?, List.getElem?_eq_getElem hi',
    List.getD_eq_getElem _ _ hi']

/-! ### The per-position transforms on the real table -/

lemma vig_matcher_ok {m k : Char} {mi ki : Nat}
    (hm : find_index m dict = some mi) (hk : find_index k dict = some ki)
    (hmi : mi < SIZE) (hki : ki < SIZE) :
    vig_matcher vigMatrixClosed m k = .ok (dict.getD ((ki + mi) % SIZE) ' ') := by
  simp only [vig_matcher, index_finder_closed, hm, hk, bind, Except.bind, pure,
    Except.pure]
  exact congrArg Except.ok (closed_entry hki hmi)

lemma vig_matcher_err_msg {m : Char} (k : Char) (hm : m ∉ dict) :
    vig_matcher vigMatrixClosed m k = .error (.InvalidChar m) := by
  simp only [vig_matcher, index_finder_closed, find_index_none hm, bind,
    Except.bind]

lemma vig_matcher_err_key {m k : Char} (hm : m ∈ dict) (hk : k ∉ dict) :
    vig_matcher vigMatrixClosed m k = .error (.InvalidChar k) := by
  obtain ⟨mi, hmi, -, -⟩ := find_index_mem hm
  simp only [vig_matcher, index_finder_closed, hmi, find_index_none hk, bind,
    Except.bind]

lemma decode_scan_closed_eq (ki : Nat) (e : Char) :
    decode_scan vigMatrixClosed ki e =
      (List.range SIZE).foldl
        (fun acc c => if (vigMatrixClosed.getD ki []).getD c ' ' = e then c
          else acc) 0 := by
  rw [decode_scan, closed_length]

lemma decode_scan_unique {ki mi : Nat} (hki : ki < SIZE) (hmi : mi < SIZE) :
    decode_scan vigMatrixClosed ki (dict.getD ((ki + mi) % SIZE) ' ') = mi := by
  rw [decode_scan_closed_eq]
  refine foldl_select_unique (List.range SIZE) 0 (List.mem_range.mpr hmi)
    (closed_entry hki hmi) ?_
  intro x hx hPx
  have hx' : x < SIZE := List.mem_range.mp hx
  rw [closed_entry hki hx'] at hPx
  have harg := dict_getD_inj (Nat.mod_lt _ (by decide)) (Nat.mod_lt _ (by decide)) hPx
  have hmi' : mi < SIZE := hmi
  simp only [SIZE] at harg hx' hmi'
  omega

lemma decode_scan_lt (ki : Nat) (e : Char) : decode_scan vigMatrixClosed ki e < SIZE := by
  rw [decode_scan_closed_eq]
  exact foldl_select_lt (List.range SIZE) 0 (fun x hx => List.mem_range.mp hx)
    (by decide)

lemma decode_scan_notin {ki : Nat} (hki : ki < SIZE) {e : Char} (he : e ∉ dict) :
    decode_scan vigMatrixClosed ki e = 0 := by
  rw [decode_scan_closed_eq]
  refine foldl_select_of_forall_not (List.range SIZE) 0 (fun x hx hPx => ?_)
  have hx' : x < SIZE := List.mem_range.mp hx
  rw [closed_entry hki hx'] at hPx
  have h1 : (ki + x) % SIZE < dict.length := by
    rw [dict_length]
    exact Nat.mod_lt _ (by decide)
  have hmem : dict.getD ((ki + x) % SIZE) ' ' ∈ dict := by
    rw [List.getD_eq_getElem _ _ h1]
    exact List.getElem_mem h1
  rw [hPx] at hmem
  exact he hmem

/-! ### Zip indexing -/

lemma zip_length : ∀ (l1 l2 : List Char), l2.length = l1.length →
    (l1.zip l2).length = l1.length
  | [], _, _ => rfl
  | a :: l1, [], h => by simp at h
  | a :: l1, b :: l2, h => by
    simp only [List.zip_cons_cons, List.length_cons]
    rw [zip_length l1 l2 (by simpa using h)]

lemma zip_getD : ∀ (l1 l2 : List Char) (i : Nat), l2.length = l1.length →
    i < l1.length →
    (l1.zip l2).getD i (' ', ' ') = (l1.getD i ' ', l2.getD i ' ')
  | [], _, _, _, hi => by simp at hi
  | a :: l1, [], _, h, _ => by simp at h
  | a :: l1, b :: l2, 0, h, hi => rfl
  | a :: l1, b :: l2, i + 1, h, hi => by
    simp only [List.zip_cons_cons, List.getD_cons_succ]
    exact zip_getD l1 l2 i (by simpa using h) (by simpa using hi)

/-! ### The encryption loop -/

lemma encode_go_ok (pairs : List (Char × Char)) :
    (∀ i, i < pairs.length →
      (pairs.getD i (' ', ' ')).1 ∈ dict ∧ (pairs.getD i (' ', ' ')).2 ∈ dict) →
    ∃ out, encode_go vigMatrixClosed pairs = .ok out ∧
      out.length = pairs.length ∧
      ∀ i, i < pairs.length → ∃ mi ki,
        find_index (pairs.getD i (' ', ' ')).1 dict = some mi ∧
        find_index (pairs.getD i (' ', ' ')).2 dict = some ki ∧
        out.getD i ' ' = dict.getD ((ki + mi) % SIZE) ' ' := by
  induction pairs with
  | nil => exact fun _ => ⟨[], rfl, rfl, fun i hi => absurd hi (by simp)⟩
  | cons p rest ih =>
    intro h
    obtain ⟨m, k⟩ := p
    have h0 := h 0 (by simp)
    simp only [List.getD_cons_zero] at h0
    obtain ⟨mi, hmi, hmilt, -⟩ := find_index_mem h0.1
    obtain ⟨ki, hki, hkilt, -⟩ := find_index_mem h0.2
    rw [dict_length] at hmilt hkilt
    obtain ⟨out, ho1, ho2, ho3⟩ := ih (fun i hi => by
      have := h (i + 1) (by simpa using hi)
      simpa using this)
    refine ⟨dict.getD ((ki + mi) % SIZE) ' ' :: out, ?_, by simp [ho2], ?_⟩
    · simp only [encode_go, vig_matcher_ok hmi hki hmilt hkilt, ho1, bind,
        Except.bind, pure, Except.pure]
    · intro i hi
      cases i with
      | zero => exact ⟨mi, ki, by simpa using hmi, by simpa using hki, by simp⟩
      | succ i =>
        obtain ⟨mi2, ki2, a1, a2, a3⟩ := ho3 i (by simpa using hi)
        exact ⟨mi2, ki2, by simpa using a1, by simpa using a2, by simpa using a3⟩

lemma encode_go_err (pairs : List (Char × Char)) :
    ∀ i0, i0 < pairs.length →
    ((pairs.getD i0 (' ', ' ')).1 ∉ dict ∨ (pairs.getD i0 (' ', ' ')).2 ∉ dict) →
    (∀ j, j < i0 →
      (pairs.getD j (' ', ' ')).1 ∈ dict ∧ (pairs.getD j (' ', ' ')).2 ∈ dict) →
    encode_go vigMatrixClosed pairs = .error (.InvalidChar
      (if (pairs.getD i0 (' ', ' ')).1 ∉ dict then (pairs.getD i0 (' ', ' ')).1
        else (pairs.getD i0 (' ', ' ')).2)) := by
  induction pairs with
  | nil => intro i0 hi0; simp at hi0
  | cons p rest ih =>
    intro i0 hi0 hbad hgood
    obtain ⟨m, k⟩ := p
    cases i0 with
    | zero =>
      simp only [List.getD_cons_zero] at hbad ⊢
      by_cases hm : m ∈ dict
      · have hk : k ∉ dict := by
          rcases hbad with h1 | h2
          · exact absurd hm h1
          · exact h2
        rw [if_neg (fun hn => hn hm)]
        simp only [encode_go, vig_matcher_err_key hm hk, bind, Except.bind]
      · rw [if_pos hm]
        simp only [encode_go, vig_matcher_err_msg k hm, bind, Except.bind]
    | succ i0 =>
      have h0 := hgood 0 (Nat.succ_pos _)
      simp only [List.getD_cons_zero] at h0
      obtain ⟨mi, hmi, hmilt, -⟩ := find_index_mem h0.1
      obtain ⟨ki, hki, hkilt, -⟩ := find_index_mem h0.2
      rw [dict_length] at hmilt hkilt
      have hrest := ih i0 (by simpa using hi0) (by simpa using hbad)
        (fun j hj => by simpa using hgood (j + 1) (by simpa using hj))
      simp only [List.getD_cons_succ]
      simp only [encode_go, vig_matcher_ok hmi hki hmilt hkilt, hrest, bind,
        Except.bind]

/-! ### The decryption loop -/

lemma encode_decode_go (ms : List Char) :
    ∀ ks : List Char, ks.length = ms.length →
    (∀ c ∈ ms, c ∈ dict) → (∀ c ∈ ks, c ∈ dict) →
    ∃ out, encode_go vigMatrixClosed (ms.zip ks) = .ok out ∧
      out.length = ms.length ∧
      decode_go vigMatrixClosed (out.zip ks) = .ok ms := by
  induction ms with
  | nil => exact fun ks _ _ _ => ⟨[], rfl, rfl, rfl⟩
  | cons m ms ih =>
    intro ks hlen hms hks
    cases ks with
    | nil => simp at hlen
    | cons k ks =>
      have hm : m ∈ dict := hms m (List.mem_cons_self m ms)
      have hk : k ∈ dict := hks k (List.mem_cons_self k ks)
      obtain ⟨mi, hmi, hmilt, hmgd⟩ := find_index_mem hm
      obtain ⟨ki, hki, hkilt, hkgd⟩ := find_index_mem hk
      rw [dict_length] at hmilt hkilt
      obtain ⟨out, ho1, ho2, ho3⟩ := ih ks (by simpa using hlen)
        (fun c hc => hms c (List.mem_cons_of_mem m hc))
        (fun c hc => hks c (List.mem_cons_of_mem k hc))
      refine ⟨dict.getD ((ki + mi) % SIZE) ' ' :: out, ?_, by simp [ho2], ?_⟩
      · rw [List.zip_eq_zipWith] at ho1 ⊢
        simp only [List.zipWith_cons_cons, encode_go,
          vig_matcher_ok hmi hki hmilt hkilt, ho1, bind, Except.bind, pure,
          Except.pure]
      · rw [List.zip_eq_zipWith] at ho3 ⊢
        simp only [List.zipWith_cons_cons, decode_go, index_finder_closed, hki,
          decode_scan_unique hkilt hmilt, char_finder_closed hmilt, hmgd, ho3,
          bind, Except.bind, pure, Except.pure]

lemma decode_go_ok (pairs : List (Char × Char)) :
    (∀ i, i < pairs.length → (pairs.getD i (' ', ' ')).2 ∈ dict) →
    ∃ out, decode_go vigMatrixClosed pairs = .ok out ∧
      out.length = pairs.length ∧
      ∀ i, i < pairs.length → (pairs.getD i (' ', ' ')).1 ∉ dict →
        out.getD i ' ' = '!' := by
  induction pairs with
  | nil => exact fun _ => ⟨[], rfl, rfl, fun i hi => absurd hi (by simp)⟩
  | cons p rest ih =>
    intro h
    obtain ⟨e, k⟩ := p
    have hk : k ∈ dict := by
      have := h 0 (by simp)
      simpa using this
    obtain ⟨ki, hki, hkilt, -⟩ := find_index_mem hk
    rw [dict_length] at hkilt
    obtain ⟨out, ho1, ho2, ho3⟩ := ih (fun i hi => by
      have := h (i + 1) (by simpa using hi)
      simpa using this)
    refine ⟨dict.getD (decode_scan vigMatrixClosed ki e) ' ' :: out, ?_,
      by simp [ho2], ?_⟩
    · simp only [decode_go, index_finder_closed, hki,
        char_finder_closed (decode_scan_lt ki e), ho1, bind, Except.bind, pure,
        Except.pure]
    · intro i hi hnot
      cases i with
      | zero =>
        simp only [List.getD_cons_zero] at hnot ⊢
        rw [decode_scan_notin hkilt hnot]
        decide
      | succ i =>
        simp only [List.getD_cons_succ] at hnot ⊢
        exact ho3 i (by simpa using hi) hnot

/-! ### Derived facts about the completed key -/

lemma key_for_mem {key : List Char} (hk : key ≠ []) {n : Nat} {l : List Char}
    (h : key_for key n = some l) : ∀ c ∈ l, c ∈ key := by
  obtain ⟨l2, h1, h2, h3⟩ := key_for_spec hk n
  rw [h1] at h
  injection h with h
  subst h
  intro c hc
  obtain ⟨i, hi, hci⟩ := List.mem_iff_getElem.mp hc
  have hgd : l2.getD i ' ' = c := by
    rw [List.getD_eq_getElem _ _ hi]
    exact hci
  rw [h2] at hi
  rw [h3 i hi] at hgd
  have hlen : i % key.length < key.length :=
    Nat.mod_lt _ (List.length_pos.mpr hk)
  rw [List.getD_eq_getElem _ _ hlen] at hgd
  rw [← hgd]
  exact List.getElem_mem hlen

lemma eq_of_getD {l1 l2 : List Char} (hlen : l1.length = l2.length)
    (h : ∀ i, i < l1.length → l1.getD i ' ' = l2.getD i ' ') : l1 = l2 := by
  refine List.ext_getElem hlen (fun i h1 h2 => ?_)
  rw [← List.getD_eq_getElem l1 ' ' h1, ← List.getD_eq_getElem l2 ' ' h2]
  exact h i h1

lemma key_for_doubling {key : List Char} (hk : key ≠ []) (n : Nat) :
    key_for key n = key_for (key ++ key) n := by
  have hL : 0 < key.length := List.length_pos.mpr hk
  have hkk : key ++ key ≠ [] := List.append_ne_nil_of_left_ne_nil hk key
  have hdvd : key.length ∣ key.length + key.length := ⟨2, by ring⟩
  obtain ⟨l1, h11, h12, h13⟩ := key_for_spec hk n
  obtain ⟨l2, h21, h22, h23⟩ := key_for_spec hkk n
  rw [h11, h21]
  refine congrArg some (eq_of_getD (by rw [h12, h22]) ?_)
  intro i hi
  rw [h12] at hi
  rw [h13 i hi, h23 i hi, List.length_append]
  by_cases hj : i % (key.length + key.length) < key.length
  · rw [List.getD_append _ _ _ _ hj]
    have h2 := Nat.mod_mod_of_dvd i hdvd
    rw [Nat.mod_eq_of_lt hj] at h2
    rw [h2]
  · push_neg at hj
    rw [List.getD_append_right _ _ _ _ hj]
    have h2 := Nat.mod_mod_of_dvd i hdvd
    have hlt : i % (key.length + key.length) < key.length + key.length :=
      Nat.mod_lt _ (by omega)
    have h4 : i % (key.length + key.length) - key.length = i % key.length := by
      have hsub : i % (key.length + key.length) - key.length < key.length := by
        omega
      rw [← h2, Nat.mod_eq_sub_mod hj, Nat.mod_eq_of_lt hsub]
    rw [h4]

/-! ### The display rewrite -/

lemma web_escape_eq_flatMap (l : List Char) :
    web_escape l = l.flatMap (fun ch =>
      if ch = ' ' then "&nbsp;".data
      else if ch = Char.ofNat 10 ∨ ch = Char.ofNat 13 then "<br>".data
      else [ch]) := by
  induction l with
  | nil => rfl
  | cons c cs ih => rw [web_escape, List.flatMap_cons, ih]

/-! ### Rows and columns as rotations -/

lemma matrix_unique {M : List (List Char)} (hM : vigMatrixNew = some M) :
    M = vigMatrixClosed := by
  have h := vig_new_eq_closed.symm.trans hM
  injection h with h
  exact h.symm

lemma closed_row_rotate {r : Nat} (hr : r < SIZE) :
    vigMatrixClosed.getD r [] = dict.rotate r := by
  rw [closed_row hr]
  refine List.ext_getElem ?_ (fun i h1 h2 => ?_)
  · simp [List.length_rotate, dict_length]
  · simp only [List.getElem_map, List.getElem_range, List.getElem_rotate]
    have h2p : (i + r) % dict.length < dict.length :=
      Nat.mod_lt _ (List.length_pos.mpr dict_ne_nil)
    rw [← List.getD_eq_getElem dict ' ' h2p]
    refine congrArg (fun j => dict.getD j ' ') ?_
    rw [dict_length, Nat.add_comm r i]

lemma closed_col_rotate {c : Nat} (hc : c < SIZE) :
    (List.range SIZE).map (fun r => (vigMatrixClosed.getD r []).getD c ' ') =
      dict.rotate c := by
  refine List.ext_getElem ?_ (fun i h1 h2 => ?_)
  · simp [List.length_rotate, dict_length]
  · simp only [List.getElem_map, List.getElem_range, List.getElem_rotate]
    have hi : i < SIZE := by simpa using h1
    rw [closed_entry hi hc]
    have h2p : (i + c) % dict.length < dict.length :=
      Nat.mod_lt _ (List.length_pos.mpr dict_ne_nil)
    rw [← List.getD_eq_getElem dict ' ' h2p]
    refine congrArg (fun j => dict.getD j ' ') ?_
    rw [dict_length]

/-! ## The claims -/

/-- C3: the substitution table produced by the iterative construction (a
never-resetting cyclic iterator over the alphabet, skipping one extra
element after each row) is exactly the closed-form table whose entry at row
`r` and column `c` in `[0, 192)` is `Alphabet[(r + c) mod 192]`. -/
theorem C3_table_closed_form :
    vigMatrixNew = some vigMatrixClosed ∧
    ∀ r, r < SIZE → ∀ c, c < SIZE →
      (vigMatrixClosed.getD r []).getD c ' ' = dict.getD ((r + c) % SIZE) ' ' :=
  ⟨vig_new_eq_closed, fun _ hr _ hc => closed_entry hr hc⟩

/-- C4 counterexample: the Alphabet is not listed in codepoint order — the
space character U+0020 sits at position 94, after `~` (U+007E) at position
93, although both belong to the claimed ranges. -/
theorem C4_counterexample :
    (' ' ∈ dict) ∧ dict.getD 93 ' ' = '~' ∧ dict.getD 94 ' ' = ' ' ∧
    ¬ ((dict.getD 93 ' ').toNat ≤ (dict.getD 94 ' ').toNat) := by decide

/-- C4 (amended): the Alphabet consists of exactly 192 pairwise-distinct
symbols: the printable ASCII characters `!` (U+0021) through `~` (U+007E) in
codepoint order, then the space character U+0020, then the Latin-1
characters U+00A1 through U+00FF in codepoint order, followed by line feed
at position 190 and carriage return at position 191. -/
theorem C4_amended_alphabet :
    dict.length = 192 ∧ dict.Nodup ∧
    dict = ((List.range 94).map (fun i => Char.ofNat (33 + i))) ++ [' '] ++
      ((List.range 95).map (fun i => Char.ofNat (161 + i))) ++
      [Char.ofNat 10, Char.ofNat 13] ∧
    dict.getD 190 ' ' = Char.ofNat 10 ∧ dict.getD 191 ' ' = Char.ofNat 13 := by
  decide

/-- C6: in the constructed substitution table, every row and every column is
a permutation of the Alphabet, and row 0 equals the Alphabet exactly. -/
theorem C6_rows_cols_perm (M : List (List Char)) (hM : vigMatrixNew = some M) :
    (∀ r, r < SIZE → (M.getD r []).Perm dict) ∧
    (∀ c, c < SIZE →
      ((List.range SIZE).map (fun r => (M.getD r []).getD c ' ')).Perm dict) ∧
    M.getD 0 [] = dict := by
  have hMC := matrix_unique hM
  subst hMC
  refine ⟨fun r hr => ?_, fun c hc => ?_, closed_row0⟩
  · rw [closed_row_rotate hr]
    exact List.rotate_perm dict r
  · rw [closed_col_rotate hc]
    exact List.rotate_perm dict c

/-- Witness for C6 at the concretely constructed matrix. -/
theorem C6_witness : vigMatrixClosed.getD 0 [] = dict :=
  (C6_rows_cols_perm vigMatrixClosed vig_new_eq_closed).2.2

/-- C7: for every non-empty key and target length `n`, the key used by the
cipher has exactly `n` characters with `ExpandedKey[i] = Key[i mod
len(Key)]`; it is empty when `n = 0`, and the statement covers both the
completion branch and the branch that skips completion when the key already
has the text's length. -/
theorem C7_key_expansion (key : List Char) (n : Nat) (hk : key ≠ []) :
    ∃ l, key_for key n = some l ∧ l.length = n ∧ (n = 0 → l = []) ∧
      ∀ i, i < n → l.getD i ' ' = key.getD (i % key.length) ' ' := by
  obtain ⟨l, h1, h2, h3⟩ := key_for_spec hk n
  exact ⟨l, h1, h2, fun h0 => List.length_eq_zero.mp (h2.trans h0), h3⟩

/-- Witness for C7 at key `"ab"` and target length 5. -/
theorem C7_witness :
    ∃ l, key_for ['a', 'b'] 5 = some l ∧ l.length = 5 ∧ ((5 : Nat) = 0 → l = []) ∧
      ∀ i, i < 5 →
        l.getD i ' ' = (['a', 'b'] : List Char).getD
          (i % (['a', 'b'] : List Char).length) ' ' :=
  C7_key_expansion ['a', 'b'] 5 (by decide)

/-- C5: with a non-empty key and the constructed table, `encode` either
succeeds — the output has exactly the plaintext's length and its symbol at
position `i` is `Alphabet[(ki + mi) mod 192]` for the Alphabet indices `ki`
and `mi` of the expanded-key and plaintext characters at `i` — or fails with
`InvalidSymbol` carrying the character at the first offending position (the
plaintext character is checked before the key character), producing no
partial output. -/
theorem C5_encode_spec (msg key : List Char) (M : List (List Char))
    (hkey : key ≠ []) (hM : vigMatrixNew = some M) :
    ∃ ke, key_for key msg.length = some ke ∧ ke.length = msg.length ∧
      ((∀ i, i < msg.length → msg.getD i ' ' ∈ dict ∧ ke.getD i ' ' ∈ dict) →
        ∃ out, encode msg key M = some (.ok out) ∧ out.length = msg.length ∧
          ∀ i, i < msg.length → ∃ mi ki,
            find_index (msg.getD i ' ') dict = some mi ∧
            find_index (ke.getD i ' ') dict = some ki ∧
            out.getD i ' ' = dict.getD ((ki + mi) % SIZE) ' ') ∧
      (∀ i0, i0 < msg.length →
        (msg.getD i0 ' ' ∉ dict ∨ ke.getD i0 ' ' ∉ dict) →
        (∀ j, j < i0 → msg.getD j ' ' ∈ dict ∧ ke.getD j ' ' ∈ dict) →
        encode msg key M = some (.error (.InvalidChar
          (if msg.getD i0 ' ' ∉ dict then msg.getD i0 ' '
            else ke.getD i0 ' ')))) := by
  have hMC := matrix_unique hM
  subst hMC
  obtain ⟨ke, h1, h2, -⟩ := key_for_spec hkey msg.length
  have hpl : (msg.zip ke).length = msg.length := zip_length msg ke h2
  refine ⟨ke, h1, h2, ?_, ?_⟩
  · intro hgood
    obtain ⟨out, e1, e2, e3⟩ := encode_go_ok (msg.zip ke) (fun i hi => by
      rw [zip_getD msg ke i h2 (by rwa [hpl] at hi)]
      exact hgood i (by rwa [hpl] at hi))
    refine ⟨out, ?_, by rw [e2, hpl], ?_⟩
    · simp only [encode, h1, Option.map_some', e1]
    · intro i hi
      obtain ⟨mi, ki, a1, a2, a3⟩ := e3 i (by rwa [hpl])
      rw [zip_getD msg ke i h2 hi] at a1 a2
      exact ⟨mi, ki, a1, a2, a3⟩
  · intro i0 hi0 hbad hgood
    have herr := encode_go_err (msg.zip ke) i0 (by rwa [hpl])
      (by rw [zip_getD msg ke i0 h2 hi0]; exact hbad)
      (fun j hj => by
        rw [zip_getD msg ke j h2 (Nat.lt_trans hj hi0)]
        exact hgood j hj)
    simp only [zip_getD msg ke i0 h2 hi0] at herr
    simp only [encode, h1, Option.map_some', herr]

/-- Witness for C5: encoding `"!"` with key `"!"` on the constructed table
succeeds. -/
theorem C5_witness :
    ∃ r, encode ['!'] ['!'] vigMatrixClosed = some (Except.ok r) := by
  obtain ⟨ke, h1, -, hgood, -⟩ :=
    C5_encode_spec ['!'] ['!'] vigMatrixClosed (by decide) vig_new_eq_closed
  have hke : ke = ['!'] := by
    rw [key_for] at h1
    simp only [ne_eq, not_true_eq_false, if_neg, ite_false, reduceIte] at h1
    exact (Option.some.inj h1).symm
  subst hke
  obtain ⟨out, ho, -, -⟩ := hgood (by decide)
  exact ⟨out, ho⟩

/-- C2: for every plaintext and non-empty key whose characters are all in
the Alphabet, decoding the encoding (with the constructed table) returns the
original plaintext. -/
theorem C2_round_trip (msg key : List Char) (M : List (List Char))
    (hkey : key ≠ []) (hkd : ∀ c ∈ key, c ∈ dict) (hmd : ∀ c ∈ msg, c ∈ dict)
    (hM : vigMatrixNew = some M) :
    ∃ cs, encode msg key M = some (.ok cs) ∧
      decode cs key M = some (.ok msg) := by
  have hMC := matrix_unique hM
  subst hMC
  obtain ⟨ke, h1, h2, -⟩ := key_for_spec hkey msg.length
  have hkemem : ∀ c ∈ ke, c ∈ dict := fun c hc =>
    hkd c (key_for_mem hkey h1 c hc)
  obtain ⟨out, e1, e2, e3⟩ := encode_decode_go msg ke h2 hmd hkemem
  refine ⟨out, ?_, ?_⟩
  · simp only [encode, h1, Option.map_some', e1]
  · have h1b : key_for key out.length = some ke := by rw [e2]; exact h1
    simp only [decode, h1b, Option.map_some', e3]

/-- Witness for C2 at plaintext `"a"` and key `"b"`. -/
theorem C2_witness :
    ∃ cs, encode ['a'] ['b'] vigMatrixClosed = some (.ok cs) ∧
      decode cs ['b'] vigMatrixClosed = some (.ok ['a']) :=
  C2_round_trip ['a'] ['b'] vigMatrixClosed (by decide) (by decide) (by decide)
    vig_new_eq_closed

/-- C8: encoding with key `K` and with `K ++ K` yields identical outcomes,
successes and errors alike, for any message and matrix. -/
theorem C8_key_doubling (msg key : List Char) (M : List (List Char))
    (hkey : key ≠ []) :
    encode msg key M = encode msg (key ++ key) M := by
  simp only [encode]
  rw [key_for_doubling hkey msg.length]

/-- Witness for C8 at message `"bc"` and key `"a"`. -/
theorem C8_witness :
    encode ['b', 'c'] ['a'] [] = encode ['b', 'c'] (['a'] ++ ['a']) [] :=
  C8_key_doubling ['b', 'c'] ['a'] [] (by decide)

/-- C9: when decoding succeeds, the web display formatting replaces each
space by `"&nbsp;"`, each line feed and each carriage return by `"<br>"`,
and passes every other character through unchanged, in the original
order. -/
theorem C9_display (enc key : List Char) (M : List (List Char))
    (d : List Char) (h : decode enc key M = some (.ok d)) :
    decode_web enc key M = some (.ok (d.flatMap (fun ch =>
      if ch = ' ' then "&nbsp;".data
      else if ch = Char.ofNat 10 ∨ ch = Char.ofNat 13 then "<br>".data
      else [ch]))) := by
  rw [decode_web, h]
  simp only [Option.map_some', Except.map]
  rw [web_escape_eq_flatMap]

/-- Witness for C9 at a one-character decode that succeeds. -/
theorem C9_witness :
    decode_web ['a'] ['b'] [['b', 'a']] =
      some (.ok ((['b'] : List Char).flatMap (fun ch =>
        if ch = ' ' then "&nbsp;".data
        else if ch = Char.ofNat 10 ∨ ch = Char.ofNat 13 then "<br>".data
        else [ch]))) :=
  C9_display ['a'] ['b'] [['b', 'a']] ['b'] (by decide)

/-- C10: with a non-empty key drawn entirely from the Alphabet, `decode`
always succeeds — never an error, in particular never `InvalidIndex` — with
output length equal to the ciphertext length, and every out-of-alphabet
ciphertext character decodes to the Alphabet's symbol at index 0, `!`. -/
theorem C10_decode_total (enc key : List Char) (M : List (List Char))
    (hkey : key ≠ []) (hkd : ∀ c ∈ key, c ∈ dict)
    (hM : vigMatrixNew = some M) :
    dict.getD 0 ' ' = '!' ∧
    ∃ out, decode enc key M = some (.ok out) ∧ out.length = enc.length ∧
      ∀ i, i < enc.length → enc.getD i ' ' ∉ dict → out.getD i ' ' = '!' := by
  have hMC := matrix_unique hM
  subst hMC
  refine ⟨by decide, ?_⟩
  obtain ⟨ke, h1, h2, -⟩ := key_for_spec hkey enc.length
  have hkemem : ∀ c ∈ ke, c ∈ dict := fun c hc =>
    hkd c (key_for_mem hkey h1 c hc)
  have hpl : (enc.zip ke).length = enc.length := zip_length enc ke h2
  obtain ⟨out, d1, d2, d3⟩ := decode_go_ok (enc.zip ke) (fun i hi => by
    rw [zip_getD enc ke i h2 (by rwa [hpl] at hi)]
    have hike : i < ke.length := by
      rw [h2]
      rwa [hpl] at hi
    have hmem : ke.getD i ' ' ∈ ke := by
      rw [List.getD_eq_getElem _ _ hike]
      exact List.getElem_mem hike
    exact hkemem _ hmem)
  refine ⟨out, ?_, by rw [d2, hpl], ?_⟩
  · simp only [decode, h1, Option.map_some', d1]
  · intro i hi hnot
    refine d3 i (by rwa [hpl]) ?_
    rw [zip_getD enc ke i h2 hi]
    exact hnot

/-- Witness for C10 at ciphertext `"\u0007"` (not in the Alphabet) and key
`"!"`. -/
theorem C10_witness :
    dict.getD 0 ' ' = '!' ∧
    ∃ out, decode [Char.ofNat 7] ['!'] vigMatrixClosed = some (.ok out) ∧
      out.length = ([Char.ofNat 7] : List Char).length ∧
      ∀ i, i < ([Char.ofNat 7] : List Char).length →
        ([Char.ofNat 7] : List Char).getD i ' ' ∉ dict →
        out.getD i ' ' = '!' :=
  C10_decode_total [Char.ofNat 7] ['!'] vigMatrixClosed (by decide) (by decide)
    vig_new_eq_closed

/-- C1: contrary to the claim, `decode` does not fail with `InvalidSymbol`
on an out-of-alphabet ciphertext character: for ciphertext `"\u0007"` (BEL,
not in the Alphabet) and key `"!"`, the source's `decode` silently returns
`"!"` — the Alphabet's symbol at index 0 — instead of an error. -/
theorem C1_decode_silent_default :
    Char.ofNat 7 ∉ dict ∧
    ∃ M, vigMatrixNew = some M ∧
      decode [Char.ofNat 7] ['!'] M = some (.ok ['!']) :=
  ⟨by decide, vigMatrixClosed, vig_new_eq_closed, by decide⟩

end VigCipher
